import Mathlib

/-!
Verification of the lazy-execution and operation-fusion core: the
optimization index (`OptimizationIndex` with `insert`/`find` from
`burn-fusion/src/stream/store/index.rs`), the stream manager
(`MultiStream::register`/`MultiStream::drain` from
`burn-fusion/src/stream/multi.rs`), and the serialization round trip.

Tensor operation descriptors are modelled by an abstract type `Op`
equipped with a Boolean structural equality `beq` (the Rust `PartialEq`
instance) and a key function `hashOp` (the `DefaultHasher` value computed
by `stream_key`, an arbitrary function into the key space).  The laws the
code relies on — equality behaves as an equivalence on the relative
descriptors whose scalar values are zeroed, and hashing is compatible
with equality, as derived `Hash`/`PartialEq` guarantee — appear as
explicit hypotheses bundled in `BeqLaws`.
-/

/-- Optimization identifiers (`OptimizationId`): opaque integer handles. -/
abbrev OptimizationId := Nat

/-- Failure modes of the index operations.  `invariantViolation` models the
panic on inserting an optimization with an empty stream (the
`expect("An optimization should never have an empty stream.")`), and
`slotMissing` models the `expect("Should exist")` on a bucket entry whose
slot is absent from `starters`. -/
inductive IndexError where
  | invariantViolation
  | slotMissing
deriving DecidableEq

/-- Embedding of `OptimizationIndex`: a mapping from the hash key of a
starting operation to a bucket of `(operation, slot)` pairs, plus the
list of slots, each slot holding the ordered optimization ids sharing
that starting operation.  The Rust
`HashMap<u64, Vec<(TensorOpsDescription, usize)>>` is embedded as an
association list keyed by the hash value. -/
structure OptimizationIndex (Op : Type) where
  mapping : List (Nat × List (Op × Nat))
  starters : List (List OptimizationId)
deriving DecidableEq

/-- Read a key from the association-list embedding of the hash map
(`HashMap::get`). -/
def getBucket {β : Type} : List (Nat × β) → Nat → Option β
  | [], _ => none
  | p :: t, k => if p.1 = k then some p.2 else getBucket t k

/-- Write a key in the association-list embedding of the hash map
(`HashMap::insert`, and in-place mutation through `get_mut`): replace the
first binding of the key, appending a fresh binding when the key is
absent. -/
def setBucket {β : Type} : List (Nat × β) → Nat → β → List (Nat × β)
  | [], k, v => [(k, v)]
  | p :: t, k, v => if p.1 = k then (k, v) :: t else p :: setBucket t k v

/-- Concatenation of all bucket contents of the mapping, used to state
global uniqueness of slot references. -/
def allEntries {β : Type} : List (Nat × List β) → List β
  | [] => []
  | p :: t => p.2 ++ allEntries t

/-- Embedding of `SearchQuery`. -/
inductive SearchQuery (Op : Type) where
  | OptimizationsStartingWith (ops : Op)

/-- Embedding of `InsertQuery`. -/
inductive InsertQuery (Op : Type) where
  | NewOptimization (stream : List Op) (id : OptimizationId)

namespace OptimizationIndex

variable {Op : Type} (beq : Op → Op → Bool) (hashOp : Op → Nat)

/-- Embedding of `OptimizationIndex::find_starting_with`. -/
def find_starting_with (idx : OptimizationIndex Op) (ops : Op) : List OptimizationId :=
  match getBucket idx.mapping (hashOp ops) with
  | none => []
  | some values =>
    if values.isEmpty then []
    else
      match values.find? (fun value => beq value.1 ops) with
      | none => []
      | some (_, index) =>
        match idx.starters[index]? with
        | some value => value
        | none => []

/-- Embedding of `OptimizationIndex::insert_new_ops`.  The
`expect("Should exist")` is modelled by the `slotMissing` error. -/
def insert_new_ops (idx : OptimizationIndex Op) (ops : Op) (new_id : OptimizationId) :
    Except IndexError (OptimizationIndex Op) :=
  match getBucket idx.mapping (hashOp ops) with
  | none =>
    .ok ⟨setBucket idx.mapping (hashOp ops) [(ops, idx.starters.length)],
      idx.starters ++ [[new_id]]⟩
  | some values =>
    match values.find? (fun value => beq value.1 ops) with
    | none =>
      .ok ⟨setBucket idx.mapping (hashOp ops) (values ++ [(ops, idx.starters.length)]),
        idx.starters ++ [[new_id]]⟩
    | some (_, index) =>
      match idx.starters[index]? with
      | some slot => .ok ⟨idx.mapping, idx.starters.set index (slot ++ [new_id])⟩
      | none => .error .slotMissing

/-- Embedding of `OptimizationIndex::find`. -/
def find (idx : OptimizationIndex Op) (query : SearchQuery Op) : List OptimizationId :=
  match query with
  | .OptimizationsStartingWith ops => find_starting_with beq hashOp idx ops

/-- Embedding of `OptimizationIndex::insert`.  The `expect` on an empty
stream is the `invariantViolation` error. -/
def insert (idx : OptimizationIndex Op) (query : InsertQuery Op) :
    Except IndexError (OptimizationIndex Op) :=
  match query with
  | .NewOptimization stream id =>
    match stream.head? with
    | some first => insert_new_ops beq hashOp idx first id
    | none => .error .invariantViolation

/-- State-passing form of `OptimizationIndex::find`: the method takes
`&self`, so the index comes back unchanged, no statement in the body
mutates it. -/
def findS (idx : OptimizationIndex Op) (query : SearchQuery Op) :
    List OptimizationId × OptimizationIndex Op :=
  (find beq hashOp idx query, idx)

/-- Apply a sequence of `insert` queries in order from a starting index,
propagating the first failure, as a client registering several
optimizations would. -/
def insertAll (idx : OptimizationIndex Op) :
    List (List Op × OptimizationId) → Except IndexError (OptimizationIndex Op)
  | [] => .ok idx
  | e :: t =>
    match insert beq hashOp idx (.NewOptimization e.1 e.2) with
    | .ok idx' => insertAll idx' t
    | .error err => .error err

/-- The bucket entry that `find_starting_with` and `insert_new_ops` select
for a starting operation: look the hash key up, then scan the bucket by
structural equality. -/
def entryFor (idx : OptimizationIndex Op) (ops : Op) : Option (Op × Nat) :=
  match getBucket idx.mapping (hashOp ops) with
  | none => none
  | some values => values.find? (fun value => beq value.1 ops)

/-- Laws connecting the structural equality and the hash key function,
relied on by the code: the derived `PartialEq` is an equivalence on the
relative descriptors (scalar values zeroed, see the comment on
`OptimizationIndex.mapping` in the source), and the derived `Hash` is
compatible with it. -/
structure BeqLaws : Prop where
  refl : ∀ a, beq a a = true
  symm : ∀ a b, beq a b = true → beq b a = true
  trans : ∀ a b c, beq a b = true → beq b c = true → beq a c = true
  hash_congr : ∀ a b, beq a b = true → hashOp a = hashOp b

/-- Structural invariant of the index: bucket entries carry their own hash
key, slot references stay in bounds, entries of one bucket are pairwise
structurally distinct, each slot is referenced by at most one entry
globally, every slot is referenced, and slots are never empty. -/
structure Inv (idx : OptimizationIndex Op) : Prop where
  keyed : ∀ kv ∈ idx.mapping, ∀ p ∈ kv.2, hashOp p.1 = kv.1
  bounded : ∀ kv ∈ idx.mapping, ∀ p ∈ kv.2, p.2 < idx.starters.length
  distinct : ∀ kv ∈ idx.mapping,
    kv.2.Pairwise (fun p q => beq p.1 q.1 = false ∧ beq q.1 p.1 = false)
  slotNodup : ((allEntries idx.mapping).map Prod.snd).Nodup
  covered : ∀ i, i < idx.starters.length → i ∈ (allEntries idx.mapping).map Prod.snd
  nonemptySlots : ∀ l ∈ idx.starters, l ≠ []

/-- States of the index reachable from `OptimizationIndex::default()` by
successful `insert` calls. -/
inductive Reachable : OptimizationIndex Op → Prop where
  | empty : Reachable ⟨[], []⟩
  | step {idx idx' : OptimizationIndex Op} (s : List Op) (id : OptimizationId) :
      Reachable idx → insert beq hashOp idx (.NewOptimization s id) = .ok idx' →
      Reachable idx'

end OptimizationIndex

/-! ### Stream manager model (`multi.rs`) -/

/-- Embedding of `ExecutionMode`. -/
inductive ExecutionMode where
  | Lazy
  | Sync
deriving DecidableEq

/-- Modelled from the spec: the Operation Stream (`Stream`, whose module
`stream/base` is not under `src/`) is an ordered, append-only buffer of
pending operation descriptors paired with their executable payloads
(the `Box<dyn Ops<B>>` values). -/
abbrev OpStream (D O : Type) : Type := List (D × O)

/-- Modelled from the spec: `Stream::add` appends to the tail, preserving
order. -/
def OpStream.add {D O : Type} (s : OpStream D O) (desc : D) (ops : O) : OpStream D O :=
  s ++ [(desc, ops)]

/-- One `(stream, executor)` pair, the `Item` of `MultiStream`. -/
structure StreamItem (D O E : Type) where
  stream : OpStream D O
  executor : E

/-- Embedding of `MultiStream`: the owned items and the shared optimization
store.  The store type, handle container, and processor state stay
abstract since the `execution` and `store` modules they come from are
collaborators of `multi.rs`. -/
structure MultiStream (D O E St : Type) where
  items : List (StreamItem D O E)
  optimizations : St

/-- Shape of `Processor::process` (the `execution` module is not under
`src/`): it receives the processor state, the stream, the shared store,
the handle container and an execution mode, and may mutate all of the
former, returning their new values. -/
def ProcessFn (D O E St H : Type) : Type :=
  E → OpStream D O → St → H → ExecutionMode → E × OpStream D O × St × H

/-- Embedding of `MultiStream::new`: one single item with an empty stream,
plus a fresh store. -/
def MultiStream.new {D O E St : Type} (executor : E) (store : St) :
    MultiStream D O E St :=
  ⟨[⟨[], executor⟩], store⟩

/-- Embedding of `MultiStream::register`: append the operation to the first
stream, then process that stream in `Lazy` mode with the shared store and
handle container. -/
def MultiStream.register {D O E St H : Type} (process : ProcessFn D O E St H)
    (ms : MultiStream D O E St) (ops_desc : D) (ops : O) (handles : H) :
    MultiStream D O E St × H :=
  match ms.items with
  | [] => (ms, handles)
  | item :: rest =>
    let r := process item.executor (OpStream.add item.stream ops_desc ops)
      ms.optimizations handles ExecutionMode.Lazy
    (⟨⟨r.2.1, r.1⟩ :: rest, r.2.2.1⟩, r.2.2.2)

/-- Helper for `MultiStream::drain`: process the items in order in `Sync`
mode, threading the shared store and handle container through. -/
def MultiStream.drainItems {D O E St H : Type} (process : ProcessFn D O E St H) :
    List (StreamItem D O E) → St → H → List (StreamItem D O E) × St × H
  | [], store, handles => ([], store, handles)
  | item :: rest, store, handles =>
    let r := process item.executor item.stream store handles ExecutionMode.Sync
    let rr := MultiStream.drainItems process rest r.2.2.1 r.2.2.2
    (⟨r.2.1, r.1⟩ :: rr.1, rr.2.1, rr.2.2)

/-- Embedding of `MultiStream::drain`: invoke the processor in `Sync` mode
on every owned stream. -/
def MultiStream.drain {D O E St H : Type} (process : ProcessFn D O E St H)
    (ms : MultiStream D O E St) (handles : H) : MultiStream D O E St × H :=
  let r := MultiStream.drainItems process ms.items ms.optimizations handles
  (⟨r.1, r.2.1⟩, r.2.2)

/-! ### Serialization model -/

/-- Traverse a list with a fallible function, failing when any element
fails. -/
def optTraverse {α β : Type} (f : α → Option β) : List α → Option (List β)
  | [] => some []
  | a :: t =>
    match f a, optTraverse f t with
    | some b, some bt => some (b :: bt)
    | _, _ => none

/-- Modelled from the spec: the derived serde `Serialize` of
`OptimizationIndex` (the derive expansion is not under `src/`) writes the
bucket and slot structure componentwise, descriptors going through an
element serializer `enc`. -/
def serializeIndex {Op T : Type} (enc : Op → T) (idx : OptimizationIndex Op) :
    List (Nat × List (T × Nat)) × List (List OptimizationId) :=
  (idx.mapping.map (fun kv => (kv.1, kv.2.map (fun p => (enc p.1, p.2)))), idx.starters)

/-- Modelled from the spec: the derived serde `Deserialize` of
`OptimizationIndex`, reading descriptors back with the element
deserializer `dec`. -/
def deserializeIndex {Op T : Type} (dec : T → Option Op)
    (s : List (Nat × List (T × Nat)) × List (List OptimizationId)) :
    Option (OptimizationIndex Op) :=
  match optTraverse (fun kv =>
      (optTraverse (fun p => (dec p.1).map (fun o => (o, p.2))) kv.2).map
        (fun vs => (kv.1, vs))) s.1 with
  | some m => some ⟨m, s.2⟩
  | none => none

/-! ### Concrete instantiation used to witness the hypotheses -/

/-- Structural equality on a concrete descriptor type, for witnesses. -/
def natBeq : Nat → Nat → Bool := fun a b => a == b

/-- A maximally colliding hash function, for witnesses. -/
def natHash0 : Nat → Nat := fun _ => 0

/-- A trivial processor for witnesses: it empties the stream and leaves
everything else alone. -/
def emptyProcess (D O E St H : Type) : ProcessFn D O E St H :=
  fun e _ st h _ => (e, [], st, h)

/-! ### Helper lemmas on the association-list embedding and on lists -/

theorem getBucket_setBucket {β : Type} (m : List (Nat × β)) (k : Nat) (v : β) (k' : Nat) :
    getBucket (setBucket m k v) k' = if k = k' then some v else getBucket m k' := by
  induction m with
  | nil => by_cases h : k = k' <;> simp [getBucket, setBucket, h]
  | cons p t ih =>
    by_cases hp : p.1 = k
    · by_cases h : k = k' <;> simp [getBucket, setBucket, hp, h, hp ▸ h]
    · simp only [setBucket, if_neg hp, getBucket]
      by_cases h1 : p.1 = k'
      · have hkk' : ¬ (k = k') := fun he => hp (h1.trans he.symm)
        simp [h1, hkk']
      · simp [h1, ih]

theorem setBucket_of_getBucket_none {β : Type} (m : List (Nat × β)) (k : Nat) (v : β)
    (h : getBucket m k = none) : setBucket m k v = m ++ [(k, v)] := by
  induction m with
  | nil => simp [setBucket]
  | cons p t ih =>
    simp only [getBucket] at h
    by_cases hp : p.1 = k
    · simp [hp] at h
    · simp only [setBucket, if_neg hp, List.cons_append, List.cons.injEq, true_and]
      exact ih (by simpa [hp] using h)

theorem getBucket_mem {β : Type} (m : List (Nat × β)) (k : Nat) (vs : β)
    (h : getBucket m k = some vs) : (k, vs) ∈ m := by
  induction m with
  | nil => simp [getBucket] at h
  | cons p t ih =>
    simp only [getBucket] at h
    by_cases hp : p.1 = k
    · simp only [if_pos hp, Option.some.injEq] at h
      have hpk : p = (k, vs) := by
        obtain ⟨p1, p2⟩ := p
        simp only at hp h
        simp [hp, h]
      exact hpk ▸ List.mem_cons_self _ _
    · exact List.mem_cons_of_mem _ (ih (by simpa [hp] using h))

theorem mem_setBucket {β : Type} (m : List (Nat × β)) (k : Nat) (v : β) (x : Nat × β)
    (h : x ∈ setBucket m k v) : x = (k, v) ∨ x ∈ m := by
  induction m with
  | nil => simpa [setBucket] using h
  | cons p t ih =>
    simp only [setBucket] at h
    by_cases hp : p.1 = k
    · simp only [if_pos hp, List.mem_cons] at h
      rcases h with h | h
      · exact Or.inl h
      · exact Or.inr (List.mem_cons_of_mem _ h)
    · simp only [if_neg hp, List.mem_cons] at h
      rcases h with h | h
      · exact Or.inr (List.mem_cons.mpr (Or.inl h))
      · rcases ih h with h' | h'
        · exact Or.inl h'
        · exact Or.inr (List.mem_cons_of_mem _ h')

theorem allEntries_append {β : Type} (m₁ m₂ : List (Nat × List β)) :
    allEntries (m₁ ++ m₂) = allEntries m₁ ++ allEntries m₂ := by
  induction m₁ with
  | nil => simp [allEntries]
  | cons p t ih => simp [allEntries, ih]

theorem mem_allEntries {β : Type} (m : List (Nat × List β)) (kv : Nat × List β)
    (x : β) (hkv : kv ∈ m) (hx : x ∈ kv.2) : x ∈ allEntries m := by
  induction m with
  | nil => simp at hkv
  | cons p t ih =>
    rcases List.mem_cons.mp hkv with h | h
    · subst h
      exact List.mem_append.mpr (Or.inl hx)
    · exact List.mem_append.mpr (Or.inr (ih h))

theorem exists_of_mem_allEntries {β : Type} (m : List (Nat × List β)) (x : β)
    (hx : x ∈ allEntries m) : ∃ kv ∈ m, x ∈ kv.2 := by
  induction m with
  | nil => simp [allEntries] at hx
  | cons p t ih =>
    rcases List.mem_append.mp hx with h | h
    · exact ⟨p, List.mem_cons_self _ _, h⟩
    · obtain ⟨kv, hkv, hkx⟩ := ih h
      exact ⟨kv, List.mem_cons_of_mem _ hkv, hkx⟩

theorem allEntries_setBucket_perm {β : Type} (m : List (Nat × List β)) (k : Nat)
    (vs e : List β) (h : getBucket m k = some vs) :
    List.Perm (allEntries (setBucket m k (vs ++ e))) (allEntries m ++ e) := by
  induction m with
  | nil => simp [getBucket] at h
  | cons p t ih =>
    simp only [getBucket] at h
    by_cases hp : p.1 = k
    · simp only [if_pos hp, Option.some.injEq] at h
      subst h
      simp only [setBucket, if_pos hp, allEntries, List.append_assoc]
      exact List.Perm.append_left p.2 (List.perm_append_comm.trans (List.Perm.refl _))
    · simp only [if_neg hp] at h
      simp only [setBucket, if_neg hp, allEntries, List.append_assoc]
      exact (List.Perm.append_left p.2 (ih h)).trans
        (by rw [← List.append_assoc])

theorem get?_append_of_lt {α : Type} (l₁ l₂ : List α) (n : Nat) (h : n < l₁.length) :
    (l₁ ++ l₂)[n]? = l₁[n]? := by
  induction l₁ generalizing n with
  | nil => simp at h
  | cons a t ih =>
    cases n with
    | zero => simp
    | succ n =>
      simp only [List.cons_append, List.getElem?_cons_succ]
      exact ih n (by simpa using h)

theorem get?_append_length {α : Type} (l₁ l₂ : List α) :
    (l₁ ++ l₂)[l₁.length]? = l₂[0]? := by
  induction l₁ with
  | nil => simp
  | cons a t ih => simpa using ih

theorem get?_set_self {α : Type} (l : List α) (i : Nat) (a : α) (h : i < l.length) :
    (l.set i a)[i]? = some a := by
  induction l generalizing i with
  | nil => simp at h
  | cons b t ih =>
    cases i with
    | zero => simp
    | succ i =>
      simp only [List.set_cons_succ, List.getElem?_cons_succ]
      exact ih i (by simpa using h)

theorem get?_set_ne {α : Type} (l : List α) (i j : Nat) (a : α) (h : i ≠ j) :
    (l.set i a)[j]? = l[j]? := by
  induction l generalizing i j with
  | nil => simp
  | cons b t ih =>
    cases i with
    | zero =>
      cases j with
      | zero => exact absurd rfl h
      | succ j => simp
    | succ i =>
      cases j with
      | zero => simp
      | succ j =>
        simp only [List.set_cons_succ, List.getElem?_cons_succ]
        exact ih i j (fun hij => h (by simp [hij]))

theorem mem_of_mem_set {α : Type} (l : List α) (i : Nat) (a x : α)
    (h : x ∈ l.set i a) : x ∈ l ∨ x = a := by
  induction l generalizing i with
  | nil => simp at h
  | cons b t ih =>
    cases i with
    | zero =>
      rcases List.mem_cons.mp h with h' | h'
      · exact Or.inr h'
      · exact Or.inl (List.mem_cons_of_mem _ h')
    | succ i =>
      rcases List.mem_cons.mp h with h' | h'
      · exact Or.inl (h' ▸ List.mem_cons_self _ _)
      · rcases ih i h' with h'' | h''
        · exact Or.inl (List.mem_cons_of_mem _ h'')
        · exact Or.inr h''

theorem get?_some_of_lt {α : Type} (l : List α) (i : Nat) (h : i < l.length) :
    ∃ x, l[i]? = some x := by
  induction l generalizing i with
  | nil => simp at h
  | cons b t ih =>
    cases i with
    | zero => exact ⟨b, by simp⟩
    | succ i => simpa using ih i (by simpa using h)

theorem lt_of_get?_some {α : Type} (l : List α) (i : Nat) (x : α) (h : l[i]? = some x) :
    i < l.length := by
  by_contra hc
  rw [List.getElem?_eq_none (Nat.le_of_not_lt hc)] at h
  exact Option.noConfusion h

theorem find?_append_of_some {α : Type} (p : α → Bool) (l₁ l₂ : List α) (x : α)
    (h : l₁.find? p = some x) : (l₁ ++ l₂).find? p = some x := by
  induction l₁ with
  | nil => simp [List.find?] at h
  | cons a t ih =>
    by_cases hp : p a
    · simp only [List.find?_cons_of_pos _ hp] at h
      simpa [List.find?_cons_of_pos _ hp] using h
    · simp only [List.find?_cons_of_neg _ (by simpa using hp)] at h
      simpa [List.find?_cons_of_neg _ (by simpa using hp)] using ih h

theorem find?_append_of_none {α : Type} (p : α → Bool) (l₁ l₂ : List α)
    (h : l₁.find? p = none) : (l₁ ++ l₂).find? p = l₂.find? p := by
  induction l₁ with
  | nil => simp
  | cons a t ih =>
    by_cases hp : p a
    · simp [List.find?_cons_of_pos _ hp] at h
    · simp only [List.find?_cons_of_neg _ (by simpa using hp)] at h
      simpa [List.find?_cons_of_neg _ (by simpa using hp)] using ih h

theorem find?_congr_pred {α : Type} (p q : α → Bool) (l : List α)
    (h : ∀ x ∈ l, p x = q x) : l.find? p = l.find? q := by
  induction l with
  | nil => rfl
  | cons a t ih =>
    have ha := h a (List.mem_cons_self _ _)
    by_cases hp : p a
    · rw [List.find?_cons_of_pos _ hp, List.find?_cons_of_pos _ (ha ▸ hp)]
    · rw [List.find?_cons_of_neg _ (by simpa using hp),
        List.find?_cons_of_neg _ (by simp [← ha]; simpa using hp)]
      exact ih (fun x hx => h x (List.mem_cons_of_mem _ hx))

theorem nodup_map_inj {α β : Type} (f : α → β) (l : List α)
    (h : (l.map f).Nodup) (a b : α) (ha : a ∈ l) (hb : b ∈ l) (hf : f a = f b) :
    a = b := by
  induction l with
  | nil => simp at ha
  | cons c t ih =>
    rw [List.map_cons] at h
    have h1 : f c ∉ t.map f := (List.nodup_cons.mp h).1
    have h2 : (t.map f).Nodup := (List.nodup_cons.mp h).2
    rcases List.mem_cons.mp ha with ha' | ha' <;> rcases List.mem_cons.mp hb with hb' | hb'
    · exact ha'.trans hb'.symm
    · exfalso
      apply h1
      have hb2 : f b ∈ t.map f := List.mem_map_of_mem f hb'
      rw [ha'] at hf
      rwa [← hf] at hb2
    · exfalso
      apply h1
      have ha2 : f a ∈ t.map f := List.mem_map_of_mem f ha'
      rw [hb'] at hf
      rwa [hf] at ha2
    · exact ih h2 ha' hb'

theorem countP_eq_one_of_nodup_mem {α : Type} (f : α → Nat) (l : List α) (i : Nat)
    (hnd : (l.map f).Nodup) (hmem : i ∈ l.map f) :
    l.countP (fun p => f p == i) = 1 := by
  induction l with
  | nil => simp at hmem
  | cons a t ih =>
    rw [List.map_cons] at hnd hmem
    have h1 : f a ∉ t.map f := (List.nodup_cons.mp hnd).1
    have h2 : (t.map f).Nodup := (List.nodup_cons.mp hnd).2
    rcases List.mem_cons.mp hmem with h | h
    · have ht : t.countP (fun p => f p == i) = 0 := by
        rw [List.countP_eq_zero]
        intro b hb
        simp only [beq_iff_eq]
        intro hfb
        apply h1
        have := List.mem_map_of_mem f hb
        rwa [hfb, h] at this
      simp [List.countP_cons, ht, h.symm]
    · have hne : f a ≠ i := fun hfa => h1 (hfa ▸ h)
      simp [List.countP_cons, ih h2 h, hne]

/-! ### Characterizations of `find_starting_with` -/

namespace OptimizationIndex

variable {Op : Type} (beq : Op → Op → Bool) (hashOp : Op → Nat)

theorem find_sw_of_bucket_none (idx : OptimizationIndex Op) (ops : Op)
    (hb : getBucket idx.mapping (hashOp ops) = none) :
    find_starting_with beq hashOp idx ops = [] := by
  unfold find_starting_with
  rw [hb]

theorem find_sw_of_bucket_some (idx : OptimizationIndex Op) (ops : Op)
    (vs : List (Op × Nat)) (hb : getBucket idx.mapping (hashOp ops) = some vs) :
    find_starting_with beq hashOp idx ops =
      match vs.find? (fun value => beq value.1 ops) with
      | none => []
      | some e => (idx.starters[e.2]?).getD [] := by
  unfold find_starting_with
  rw [hb]
  cases vs with
  | nil => simp
  | cons v t =>
    simp only [List.isEmpty_cons, Bool.false_eq_true, if_false]
    cases hf : (v :: t).find? (fun value => beq value.1 ops) with
    | none => simp
    | some e =>
      obtain ⟨r, i⟩ := e
      cases hs : idx.starters[i]? <;> simp [hs, Option.getD]

theorem beq_eq_false_of_hash_ne (hL : BeqLaws beq hashOp) (a op : Op)
    (h : hashOp op ≠ hashOp a) : beq a op = false := by
  cases hba : beq a op
  · rfl
  · exact absurd (hL.hash_congr a op hba).symm h

/-! ### Effect of one `insert_new_ops` on `find_starting_with`, by branch -/

theorem find_insert_case_new (hL : BeqLaws beq hashOp)
    (m : List (Nat × List (Op × Nat))) (st : List (List OptimizationId))
    (hInv : Inv beq hashOp ⟨m, st⟩) (a op : Op) (id : OptimizationId)
    (hk : getBucket m (hashOp a) = none) :
    find_starting_with beq hashOp
        ⟨setBucket m (hashOp a) [(a, st.length)], st ++ [[id]]⟩ op
      = find_starting_with beq hashOp ⟨m, st⟩ op
        ++ (if beq a op then [id] else []) := by
  by_cases hkey : hashOp op = hashOp a
  · have hb1 : getBucket (setBucket m (hashOp a) [(a, st.length)]) (hashOp op)
        = some [(a, st.length)] := by
      rw [getBucket_setBucket, if_pos hkey.symm]
    have hb0 : getBucket m (hashOp op) = none := by rw [hkey]; exact hk
    rw [find_sw_of_bucket_some beq hashOp _ op _ hb1,
      find_sw_of_bucket_none beq hashOp _ op hb0]
    by_cases hbeq : beq a op
    · rw [List.find?_cons_of_pos _ (by simpa using hbeq)]
      simp [get?_append_length, hbeq]
    · rw [List.find?_cons_of_neg _ (by simpa using hbeq)]
      simp [hbeq]
  · have hbeqf : beq a op = false := beq_eq_false_of_hash_ne beq hashOp hL a op hkey
    have hb1 : getBucket (setBucket m (hashOp a) [(a, st.length)]) (hashOp op)
        = getBucket m (hashOp op) := by
      rw [getBucket_setBucket, if_neg (fun h => hkey h.symm)]
    cases hbo : getBucket m (hashOp op) with
    | none =>
      rw [find_sw_of_bucket_none beq hashOp _ op (hb1.trans hbo),
        find_sw_of_bucket_none beq hashOp _ op hbo]
      simp [hbeqf]
    | some ws =>
      rw [find_sw_of_bucket_some beq hashOp _ op ws (hb1.trans hbo),
        find_sw_of_bucket_some beq hashOp _ op ws hbo]
      cases hfw : ws.find? (fun value => beq value.1 op) with
      | none => simp [hbeqf]
      | some e =>
        have hbd : e.2 < st.length :=
          hInv.bounded (hashOp op, ws) (getBucket_mem m (hashOp op) ws hbo) e
            (List.mem_of_find?_eq_some hfw)
        simp [get?_append_of_lt st [[id]] e.2 hbd, hbeqf]

theorem find_insert_case_collision (hL : BeqLaws beq hashOp)
    (m : List (Nat × List (Op × Nat))) (st : List (List OptimizationId))
    (hInv : Inv beq hashOp ⟨m, st⟩) (a op : Op) (id : OptimizationId)
    (vs : List (Op × Nat)) (hk : getBucket m (hashOp a) = some vs)
    (hf : vs.find? (fun value => beq value.1 a) = none) :
    find_starting_with beq hashOp
        ⟨setBucket m (hashOp a) (vs ++ [(a, st.length)]), st ++ [[id]]⟩ op
      = find_starting_with beq hashOp ⟨m, st⟩ op
        ++ (if beq a op then [id] else []) := by
  by_cases hkey : hashOp op = hashOp a
  · have hb1 : getBucket (setBucket m (hashOp a) (vs ++ [(a, st.length)])) (hashOp op)
        = some (vs ++ [(a, st.length)]) := by
      rw [getBucket_setBucket, if_pos hkey.symm]
    have hb0 : getBucket m (hashOp op) = some vs := by rw [hkey]; exact hk
    rw [find_sw_of_bucket_some beq hashOp _ op _ hb1,
      find_sw_of_bucket_some beq hashOp _ op vs hb0]
    cases hfv : vs.find? (fun value => beq value.1 op) with
    | some e =>
      rw [find?_append_of_some _ vs [(a, st.length)] e hfv]
      have hbd : e.2 < st.length :=
        hInv.bounded (hashOp op, vs) (getBucket_mem m (hashOp op) vs hb0) e
          (List.mem_of_find?_eq_some hfv)
      have hbeqf : beq a op = false := by
        cases hba : beq a op
        · rfl
        · exfalso
          have h1 : beq e.1 op = true := by simpa using List.find?_some hfv
          have h2 : beq op a = true := hL.symm a op hba
          have h3 : beq e.1 a = true := hL.trans e.1 op a h1 h2
          have h4 := List.find?_eq_none.mp hf e (List.mem_of_find?_eq_some hfv)
          simp [h3] at h4
      simp [get?_append_of_lt st [[id]] e.2 hbd, hbeqf]
    | none =>
      rw [find?_append_of_none _ vs [(a, st.length)] hfv]
      by_cases hbeq : beq a op
      · rw [List.find?_cons_of_pos _ (by simpa using hbeq)]
        simp [get?_append_length, hbeq]
      · rw [List.find?_cons_of_neg _ (by simpa using hbeq)]
        simp [hbeq]
  · have hbeqf : beq a op = false := beq_eq_false_of_hash_ne beq hashOp hL a op hkey
    have hb1 : getBucket (setBucket m (hashOp a) (vs ++ [(a, st.length)])) (hashOp op)
        = getBucket m (hashOp op) := by
      rw [getBucket_setBucket, if_neg (fun h => hkey h.symm)]
    cases hbo : getBucket m (hashOp op) with
    | none =>
      rw [find_sw_of_bucket_none beq hashOp _ op (hb1.trans hbo),
        find_sw_of_bucket_none beq hashOp _ op hbo]
      simp [hbeqf]
    | some ws =>
      rw [find_sw_of_bucket_some beq hashOp _ op ws (hb1.trans hbo),
        find_sw_of_bucket_some beq hashOp _ op ws hbo]
      cases hfw : ws.find? (fun value => beq value.1 op) with
      | none => simp [hbeqf]
      | some e =>
        have hbd : e.2 < st.length :=
          hInv.bounded (hashOp op, ws) (getBucket_mem m (hashOp op) ws hbo) e
            (List.mem_of_find?_eq_some hfw)
        simp [get?_append_of_lt st [[id]] e.2 hbd, hbeqf]

theorem find_insert_case_existing (hL : BeqLaws beq hashOp)
    (m : List (Nat × List (Op × Nat))) (st : List (List OptimizationId))
    (hInv : Inv beq hashOp ⟨m, st⟩) (a op : Op) (id : OptimizationId)
    (vs : List (Op × Nat)) (rep : Op) (i₀ : Nat) (slot : List OptimizationId)
    (hk : getBucket m (hashOp a) = some vs)
    (hf : vs.find? (fun value => beq value.1 a) = some (rep, i₀))
    (hs : st[i₀]? = some slot) :
    find_starting_with beq hashOp ⟨m, st.set i₀ (slot ++ [id])⟩ op
      = find_starting_with beq hashOp ⟨m, st⟩ op
        ++ (if beq a op then [id] else []) := by
  have hrepa : beq rep a = true := by simpa using List.find?_some hf
  have hrepmem : (rep, i₀) ∈ vs := List.mem_of_find?_eq_some hf
  have hi₀ : i₀ < st.length := lt_of_get?_some st i₀ slot hs
  by_cases hbeq : beq a op
  · have hkey : hashOp op = hashOp a := (hL.hash_congr a op (by simpa using hbeq)).symm
    have hb0 : getBucket m (hashOp op) = some vs := by rw [hkey]; exact hk
    have hcong : vs.find? (fun value => beq value.1 op) = some (rep, i₀) := by
      rw [← hf]
      apply find?_congr_pred
      intro x hx
      cases hxa : beq x.1 a
      · cases hxo : beq x.1 op
        · rfl
        · exfalso
          have h1 : beq op a = true := hL.symm a op (by simpa using hbeq)
          have h2 : beq x.1 a = true := hL.trans x.1 op a hxo h1
          rw [hxa] at h2
          exact Bool.noConfusion h2
      · have h2 : beq x.1 op = true := hL.trans x.1 a op hxa (by simpa using hbeq)
        rw [h2]
    rw [find_sw_of_bucket_some beq hashOp ⟨m, st.set i₀ (slot ++ [id])⟩ op vs hb0,
      find_sw_of_bucket_some beq hashOp ⟨m, st⟩ op vs hb0, hcong]
    simp [get?_set_self st i₀ (slot ++ [id]) hi₀, hs, hbeq]
  · by_cases hkey : hashOp op = hashOp a
    · have hb0 : getBucket m (hashOp op) = some vs := by rw [hkey]; exact hk
      rw [find_sw_of_bucket_some beq hashOp ⟨m, st.set i₀ (slot ++ [id])⟩ op vs hb0,
        find_sw_of_bucket_some beq hashOp ⟨m, st⟩ op vs hb0]
      cases hfv : vs.find? (fun value => beq value.1 op) with
      | none => simp [hbeq]
      | some e =>
        have hemem := List.mem_of_find?_eq_some hfv
        have heop : beq e.1 op = true := by simpa using List.find?_some hfv
        have hne : e.2 ≠ i₀ := by
          intro he
          have h1 : e ∈ allEntries m :=
            mem_allEntries m (hashOp op, vs) e (getBucket_mem m (hashOp op) vs hb0) hemem
          have h2 : (rep, i₀) ∈ allEntries m :=
            mem_allEntries m (hashOp a, vs) (rep, i₀) (getBucket_mem m (hashOp a) vs hk)
              hrepmem
          have heq : e = (rep, i₀) :=
            nodup_map_inj Prod.snd (allEntries m) hInv.slotNodup e (rep, i₀) h1 h2
              (by simpa using he)
          rw [heq] at heop
          have h4 : beq a rep = true := hL.symm rep a hrepa
          have h5 : beq a op = true := hL.trans a rep op h4 (by simpa using heop)
          exact absurd h5 (by simpa using hbeq)
        simp [get?_set_ne st i₀ e.2 (slot ++ [id]) (fun h => hne h.symm), hbeq]
    · cases hbo : getBucket m (hashOp op) with
      | none =>
        rw [find_sw_of_bucket_none beq hashOp ⟨m, st.set i₀ (slot ++ [id])⟩ op hbo,
          find_sw_of_bucket_none beq hashOp ⟨m, st⟩ op hbo]
        simp [hbeq]
      | some ws =>
        rw [find_sw_of_bucket_some beq hashOp ⟨m, st.set i₀ (slot ++ [id])⟩ op ws hbo,
          find_sw_of_bucket_some beq hashOp ⟨m, st⟩ op ws hbo]
        cases hfw : ws.find? (fun value => beq value.1 op) with
        | none => simp [hbeq]
        | some e =>
          have hemem := List.mem_of_find?_eq_some hfw
          have hwsmem := getBucket_mem m (hashOp op) ws hbo
          have hne : e.2 ≠ i₀ := by
            intro he
            have h1 : e ∈ allEntries m := mem_allEntries m (hashOp op, ws) e hwsmem hemem
            have h2 : (rep, i₀) ∈ allEntries m :=
              mem_allEntries m (hashOp a, vs) (rep, i₀) (getBucket_mem m (hashOp a) vs hk)
                hrepmem
            have heq : e = (rep, i₀) :=
              nodup_map_inj Prod.snd (allEntries m) hInv.slotNodup e (rep, i₀) h1 h2
                (by simpa using he)
            have h3 : hashOp e.1 = hashOp op := hInv.keyed (hashOp op, ws) hwsmem e hemem
            have h4 : hashOp rep = hashOp a :=
              hInv.keyed (hashOp a, vs) (getBucket_mem m (hashOp a) vs hk) (rep, i₀) hrepmem
            rw [heq] at h3
            exact hkey ((by simpa using h3 : hashOp rep = hashOp op).symm.trans h4)
          simp [get?_set_ne st i₀ e.2 (slot ++ [id]) (fun h => hne h.symm), hbeq]

/-- Effect of one successful `insert_new_ops` on `find_starting_with`: the
result for every starting operation is the old result, extended with the
new id exactly when the inserted operation is structurally equal to the
queried one. -/
theorem find_insert (hL : BeqLaws beq hashOp) (idx : OptimizationIndex Op)
    (hInv : Inv beq hashOp idx) (a : Op) (id : OptimizationId)
    (idx' : OptimizationIndex Op)
    (h : insert_new_ops beq hashOp idx a id = .ok idx') (op : Op) :
    find_starting_with beq hashOp idx' op
      = find_starting_with beq hashOp idx op
        ++ (if beq a op then [id] else []) := by
  obtain ⟨m, st⟩ := idx
  unfold insert_new_ops at h
  cases hk : getBucket m (hashOp a) with
  | none =>
    rw [hk] at h
    simp only [Except.ok.injEq] at h
    subst h
    exact find_insert_case_new beq hashOp hL m st hInv a op id hk
  | some vs =>
    rw [hk] at h
    cases hfa : vs.find? (fun value => beq value.1 a) with
    | none =>
      simp only [hfa, Except.ok.injEq] at h
      subst h
      exact find_insert_case_collision beq hashOp hL m st hInv a op id vs hk hfa
    | some e =>
      obtain ⟨rep, i₀⟩ := e
      simp only [hfa] at h
      cases hss : st[i₀]? with
      | none =>
        simp only [hss] at h
        simp at h
      | some slot =>
        simp only [hss, Except.ok.injEq] at h
        subst h
        exact find_insert_case_existing beq hashOp hL m st hInv a op id vs rep i₀ slot
          hk hfa hss

/-- One successful `insert_new_ops` preserves the structural invariant. -/
theorem Inv_insert (hL : BeqLaws beq hashOp) (idx : OptimizationIndex Op)
    (hInv : Inv beq hashOp idx) (a : Op) (id : OptimizationId)
    (idx' : OptimizationIndex Op)
    (h : insert_new_ops beq hashOp idx a id = .ok idx') :
    Inv beq hashOp idx' := by
  obtain ⟨m, st⟩ := idx
  unfold insert_new_ops at h
  cases hk : getBucket m (hashOp a) with
  | none =>
    rw [hk] at h
    simp only [Except.ok.injEq] at h
    subst h
    have hset : setBucket m (hashOp a) [(a, st.length)]
        = m ++ [(hashOp a, [(a, st.length)])] :=
      setBucket_of_getBucket_none m (hashOp a) _ hk
    have hbnd : ∀ j ∈ (allEntries m).map Prod.snd, j < st.length := by
      intro j hj
      obtain ⟨p, hp, hpj⟩ := List.mem_map.mp hj
      obtain ⟨kv, hkv, hpkv⟩ := exists_of_mem_allEntries m p hp
      exact hpj ▸ hInv.bounded kv hkv p hpkv
    constructor
    · intro kv hkv p hp
      rw [hset] at hkv
      rcases List.mem_append.mp hkv with hkv | hkv
      · exact hInv.keyed kv hkv p hp
      · have hkv' : kv = (hashOp a, [(a, st.length)]) := by simpa using hkv
        subst hkv'
        have hp' : p = (a, st.length) := by simpa using hp
        subst hp'
        rfl
    · intro kv hkv p hp
      rw [hset] at hkv
      simp only [List.length_append, List.length_cons, List.length_nil]
      rcases List.mem_append.mp hkv with hkv | hkv
      · exact Nat.lt_succ_of_lt (hInv.bounded kv hkv p hp)
      · have hkv' : kv = (hashOp a, [(a, st.length)]) := by simpa using hkv
        subst hkv'
        have hp' : p = (a, st.length) := by simpa using hp
        subst hp'
        exact Nat.lt_succ_self _
    · intro kv hkv
      rw [hset] at hkv
      rcases List.mem_append.mp hkv with hkv | hkv
      · exact hInv.distinct kv hkv
      · have hkv' : kv = (hashOp a, [(a, st.length)]) := by simpa using hkv
        subst hkv'
        simp
    · rw [hset, allEntries_append]
      simp only [allEntries, List.append_nil, List.map_append]
      rw [List.nodup_append]
      refine ⟨hInv.slotNodup, by simp, ?_⟩
      intro j hj hj'
      have hjlt := hbnd j hj
      have hjeq : j = st.length := by simpa using hj'
      exact absurd (hjeq ▸ hjlt) (Nat.lt_irrefl _)
    · intro i hi
      rw [hset, allEntries_append]
      simp only [allEntries, List.append_nil, List.map_append, List.mem_append]
      simp only [List.length_append, List.length_cons, List.length_nil] at hi
      rcases Nat.lt_succ_iff_lt_or_eq.mp hi with hi | hi
      · exact Or.inl (hInv.covered i hi)
      · exact Or.inr (by simp [hi])
    · intro l hl
      rcases List.mem_append.mp hl with hl | hl
      · exact hInv.nonemptySlots l hl
      · have : l = [id] := by simpa using hl
        simp [this]
  | some vs =>
    rw [hk] at h
    have hvsmem : (hashOp a, vs) ∈ m := getBucket_mem m (hashOp a) vs hk
    cases hfa : vs.find? (fun value => beq value.1 a) with
    | none =>
      simp only [hfa, Except.ok.injEq] at h
      subst h
      have hperm :
          List.Perm (allEntries (setBucket m (hashOp a) (vs ++ [(a, st.length)])))
            (allEntries m ++ [(a, st.length)]) :=
        allEntries_setBucket_perm m (hashOp a) vs [(a, st.length)] hk
      have hbnd : ∀ j ∈ (allEntries m).map Prod.snd, j < st.length := by
        intro j hj
        obtain ⟨p, hp, hpj⟩ := List.mem_map.mp hj
        obtain ⟨kv, hkv, hpkv⟩ := exists_of_mem_allEntries m p hp
        exact hpj ▸ hInv.bounded kv hkv p hpkv
      constructor
      · intro kv hkv p hp
        rcases mem_setBucket m (hashOp a) _ kv hkv with hkv' | hkv'
        · subst hkv'
          rcases List.mem_append.mp hp with hp | hp
          · exact hInv.keyed (hashOp a, vs) hvsmem p hp
          · have hp' : p = (a, st.length) := by simpa using hp
            subst hp'
            rfl
        · exact hInv.keyed kv hkv' p hp
      · intro kv hkv p hp
        simp only [List.length_append, List.length_cons, List.length_nil]
        rcases mem_setBucket m (hashOp a) _ kv hkv with hkv' | hkv'
        · subst hkv'
          rcases List.mem_append.mp hp with hp | hp
          · exact Nat.lt_succ_of_lt (hInv.bounded (hashOp a, vs) hvsmem p hp)
          · have hp' : p = (a, st.length) := by simpa using hp
            subst hp'
            exact Nat.lt_succ_self _
        · exact Nat.lt_succ_of_lt (hInv.bounded kv hkv' p hp)
      · intro kv hkv
        rcases mem_setBucket m (hashOp a) _ kv hkv with hkv' | hkv'
        · subst hkv'
          rw [List.pairwise_append]
          refine ⟨hInv.distinct (hashOp a, vs) hvsmem, by simp, ?_⟩
          intro p hp q hq
          have hq' : q = (a, st.length) := by simpa using hq
          subst hq'
          have h1 : beq p.1 a = false := by
            have := List.find?_eq_none.mp hfa p hp
            cases hpa : beq p.1 a
            · rfl
            · exact absurd hpa (by simpa using this)
          have h2 : beq a p.1 = false := by
            cases hap : beq a p.1
            · rfl
            · have := hL.symm a p.1 hap
              rw [h1] at this
              exact Bool.noConfusion this
          exact ⟨h1, h2⟩
        · exact hInv.distinct kv hkv'
      · have hnd : ((allEntries m ++ [(a, st.length)]).map Prod.snd).Nodup := by
          simp only [List.map_append]
          rw [List.nodup_append]
          refine ⟨hInv.slotNodup, by simp, ?_⟩
          intro j hj hj'
          have hjlt := hbnd j hj
          have hjeq : j = st.length := by simpa using hj'
          exact absurd (hjeq ▸ hjlt) (Nat.lt_irrefl _)
        exact ((hperm.map Prod.snd).nodup_iff).mpr hnd
      · intro i hi
        simp only [List.length_append, List.length_cons, List.length_nil] at hi
        apply ((hperm.map Prod.snd).mem_iff).mpr
        simp only [List.map_append, List.mem_append]
        rcases Nat.lt_succ_iff_lt_or_eq.mp hi with hi | hi
        · exact Or.inl (hInv.covered i hi)
        · exact Or.inr (by simp [hi])
      · intro l hl
        rcases List.mem_append.mp hl with hl | hl
        · exact hInv.nonemptySlots l hl
        · have : l = [id] := by simpa using hl
          simp [this]
    | some e =>
      obtain ⟨rep, i₀⟩ := e
      simp only [hfa] at h
      cases hss : st[i₀]? with
      | none =>
        simp only [hss] at h
        simp at h
      | some slot =>
        simp only [hss, Except.ok.injEq] at h
        subst h
        constructor
        · exact hInv.keyed
        · intro kv hkv p hp
          have := hInv.bounded kv hkv p hp
          simpa [List.length_set] using this
        · exact hInv.distinct
        · exact hInv.slotNodup
        · intro i hi
          exact hInv.covered i (by simpa [List.length_set] using hi)
        · intro l hl
          rcases mem_of_mem_set st i₀ (slot ++ [id]) l hl with hl' | hl'
          · exact hInv.nonemptySlots l hl'
          · simp [hl']

/-- On an index satisfying the invariant, `insert_new_ops` always succeeds:
the internal slot lookup cannot fail. -/
theorem insert_new_ops_isOk (idx : OptimizationIndex Op)
    (hInv : Inv beq hashOp idx) (a : Op) (id : OptimizationId) :
    ∃ idx', insert_new_ops beq hashOp idx a id = .ok idx' := by
  unfold insert_new_ops
  cases hk : getBucket idx.mapping (hashOp a) with
  | none => exact ⟨_, rfl⟩
  | some vs =>
    cases hfa : vs.find? (fun value => beq value.1 a) with
    | none =>
      simp only [hfa]
      exact ⟨_, rfl⟩
    | some e =>
      obtain ⟨rep, i₀⟩ := e
      have hmem := List.mem_of_find?_eq_some hfa
      have hbd : i₀ < idx.starters.length :=
        hInv.bounded (hashOp a, vs) (getBucket_mem idx.mapping (hashOp a) vs hk) _ hmem
      obtain ⟨slot, hslot⟩ := get?_some_of_lt idx.starters i₀ hbd
      simp only [hfa, hslot]
      exact ⟨_, rfl⟩

/-- The default (empty) index satisfies the invariant. -/
theorem Inv_empty : Inv beq hashOp (⟨[], []⟩ : OptimizationIndex Op) := by
  constructor <;> simp [allEntries]

/-- Every reachable index state satisfies the structural invariant. -/
theorem Reachable.inv (hL : BeqLaws beq hashOp) (idx : OptimizationIndex Op)
    (hR : Reachable beq hashOp idx) : Inv beq hashOp idx := by
  induction hR with
  | empty => exact Inv_empty beq hashOp
  | step s id hR hins ih =>
    rename_i idx₀ idx₁
    unfold insert at hins
    cases s with
    | nil => simp at hins
    | cons a t =>
      simp only [List.head?] at hins
      exact Inv_insert beq hashOp hL idx₀ ih a id idx₁ hins

/-- Effect of a whole history of successful `insert` calls on
`find_starting_with`: the new ids appended are exactly, in order, those of
history entries whose stream starts with an operation structurally equal
to the queried one. -/
theorem insertAll_find (hL : BeqLaws beq hashOp) (idx : OptimizationIndex Op)
    (hInv : Inv beq hashOp idx) (hist : List (List Op × OptimizationId))
    (idx' : OptimizationIndex Op)
    (h : insertAll beq hashOp idx hist = .ok idx') (op : Op) :
    find_starting_with beq hashOp idx' op
      = find_starting_with beq hashOp idx op
        ++ (hist.filter (fun e =>
              match e.1 with
              | a :: _ => beq a op
              | [] => false)).map Prod.snd := by
  induction hist generalizing idx with
  | nil =>
    simp only [insertAll, Except.ok.injEq] at h
    subst h
    simp
  | cons e t ih =>
    obtain ⟨s, id⟩ := e
    unfold insertAll at h
    cases s with
    | nil => simp [insert] at h
    | cons a s' =>
      have hq : insert beq hashOp idx (.NewOptimization (a :: s') id)
          = insert_new_ops beq hashOp idx a id := rfl
      rw [hq] at h
      cases hstep : insert_new_ops beq hashOp idx a id with
      | error err =>
        simp only [hstep] at h
        simp at h
      | ok idx₁ =>
        simp only [hstep] at h
        have h1 := find_insert beq hashOp hL idx hInv a id idx₁ hstep op
        have hInv₁ := Inv_insert beq hashOp hL idx hInv a id idx₁ hstep
        have h2 := ih idx₁ hInv₁ h
        rw [h2, h1, List.append_assoc]
        congr 1
        by_cases hb : beq a op
        · simp [List.filter_cons, hb]
        · simp [List.filter_cons, hb]

end OptimizationIndex


/-! ### Claim theorems for the optimization index -/

namespace OptimizationIndex

variable {Op : Type} (beq : Op → Op → Bool) (hashOp : Op → Nat)

/-- C1.  For every sequence of successful `insert` operations starting from
the default index, and every starting operation `op`, `find` returns, in
registration order, exactly the identifiers of the optimizations whose
inserted defining sequence begins with an operation structurally equal to
`op` (the empty list when there is none); in particular for any non-empty
sequence inserted with identifier `id`, a subsequent `find` on its first
operation returns a list containing `id`. -/
theorem find_returns_registered_ids (hL : BeqLaws beq hashOp)
    (hist : List (List Op × OptimizationId)) (idx : OptimizationIndex Op)
    (h : insertAll beq hashOp ⟨[], []⟩ hist = .ok idx) :
    (∀ op, find beq hashOp idx (.OptimizationsStartingWith op)
      = (hist.filter (fun e =>
          match e.1 with
          | a :: _ => beq a op
          | [] => false)).map Prod.snd)
    ∧ ∀ a t id, (a :: t, id) ∈ hist →
        id ∈ find beq hashOp idx (.OptimizationsStartingWith a) := by
  have main : ∀ op, find beq hashOp idx (.OptimizationsStartingWith op)
      = (hist.filter (fun e =>
          match e.1 with
          | a :: _ => beq a op
          | [] => false)).map Prod.snd := by
    intro op
    have h0 := insertAll_find beq hashOp hL ⟨[], []⟩ (Inv_empty beq hashOp) hist idx h op
    have hempty : find_starting_with beq hashOp (⟨[], []⟩ : OptimizationIndex Op) op
        = [] := rfl
    rw [hempty] at h0
    simpa [find] using h0
  refine ⟨main, ?_⟩
  intro a t id hmem
  rw [main a]
  refine List.mem_map.mpr ⟨(a :: t, id), ?_, rfl⟩
  refine List.mem_filter.mpr ⟨hmem, ?_⟩
  simp [hL.refl a]

/-- C2.  Two sequences whose first operations share a hash key but are not
structurally equal go to separate slots of the same bucket, prior entries
untouched, and `find` on either starting operation returns only that
sequence's own identifier. -/
theorem collision_separate_slots (hL : BeqLaws beq hashOp)
    (a1 a2 : Op) (t1 t2 : List Op) (id1 id2 : OptimizationId)
    (hhash : hashOp a1 = hashOp a2) (hne : beq a1 a2 = false) (hid : id1 ≠ id2)
    (idx : OptimizationIndex Op)
    (h : insertAll beq hashOp ⟨[], []⟩
      [(a1 :: t1, id1), (a2 :: t2, id2)] = .ok idx) :
    getBucket idx.mapping (hashOp a1) = some [(a1, 0), (a2, 1)]
    ∧ idx.starters = [[id1], [id2]]
    ∧ find beq hashOp idx (.OptimizationsStartingWith a1) = [id1]
    ∧ find beq hashOp idx (.OptimizationsStartingWith a2) = [id2]
    ∧ id2 ∉ find beq hashOp idx (.OptimizationsStartingWith a1)
    ∧ id1 ∉ find beq hashOp idx (.OptimizationsStartingWith a2) := by
  have s1 : insert beq hashOp ⟨[], []⟩ (.NewOptimization (a1 :: t1) id1)
      = .ok ⟨[(hashOp a1, [(a1, 0)])], [[id1]]⟩ := rfl
  have s2 : insert beq hashOp ⟨[(hashOp a1, [(a1, 0)])], [[id1]]⟩
      (.NewOptimization (a2 :: t2) id2)
      = .ok ⟨[(hashOp a2, [(a1, 0), (a2, 1)])], [[id1], [id2]]⟩ := by
    show insert_new_ops beq hashOp ⟨[(hashOp a1, [(a1, 0)])], [[id1]]⟩ a2 id2 = _
    unfold insert_new_ops
    have hb : getBucket [(hashOp a1, [(a1, 0)])] (hashOp a2) = some [(a1, 0)] := by
      simp [getBucket, hhash]
    simp only [hb]
    rw [List.find?_cons_of_neg _ (by simp [hne])]
    simp [setBucket, hhash]
  have key : insertAll beq hashOp ⟨[], []⟩ [(a1 :: t1, id1), (a2 :: t2, id2)]
      = .ok ⟨[(hashOp a2, [(a1, 0), (a2, 1)])], [[id1], [id2]]⟩ := by
    simp only [insertAll, s1, s2]
  rw [key] at h
  simp only [Except.ok.injEq] at h
  subst h
  have hb1 : getBucket ([(hashOp a2, [(a1, 0), (a2, 1)])]) (hashOp a1)
      = some [(a1, 0), (a2, 1)] := by
    simp [getBucket, hhash]
  have hb2 : getBucket ([(hashOp a2, [(a1, 0), (a2, 1)])]) (hashOp a2)
      = some [(a1, 0), (a2, 1)] := by
    simp [getBucket]
  have f1 : find beq hashOp ⟨[(hashOp a2, [(a1, 0), (a2, 1)])], [[id1], [id2]]⟩
      (.OptimizationsStartingWith a1) = [id1] := by
    show find_starting_with beq hashOp _ a1 = _
    rw [find_sw_of_bucket_some beq hashOp _ a1 _ hb1]
    rw [List.find?_cons_of_pos _ (by simp [hL.refl a1])]
    rfl
  have f2 : find beq hashOp ⟨[(hashOp a2, [(a1, 0), (a2, 1)])], [[id1], [id2]]⟩
      (.OptimizationsStartingWith a2) = [id2] := by
    show find_starting_with beq hashOp _ a2 = _
    rw [find_sw_of_bucket_some beq hashOp _ a2 _ hb2]
    rw [List.find?_cons_of_neg _ (by simp [hne]), List.find?_cons_of_pos _
      (by simp [hL.refl a2])]
    rfl
  refine ⟨hb1, rfl, f1, f2, ?_, ?_⟩
  · rw [f1]
    simp only [List.mem_singleton]
    exact fun hh => hid hh.symm
  · rw [f2]
    simp only [List.mem_singleton]
    exact fun hh => hid hh

/-- C3.  Two sequences whose first operations are structurally equal share
one starter slot: inserting both makes `find` on the first operation
return both identifiers, in insertion order. -/
theorem same_starter_appends (hL : BeqLaws beq hashOp)
    (a1 a2 : Op) (t1 t2 : List Op) (id1 id2 : OptimizationId)
    (hbeq : beq a1 a2 = true) (idx : OptimizationIndex Op)
    (h : insertAll beq hashOp ⟨[], []⟩
      [(a1 :: t1, id1), (a2 :: t2, id2)] = .ok idx) :
    idx.starters = [[id1, id2]]
    ∧ find beq hashOp idx (.OptimizationsStartingWith a1) = [id1, id2] := by
  have hhash : hashOp a1 = hashOp a2 := hL.hash_congr a1 a2 hbeq
  have s1 : insert beq hashOp ⟨[], []⟩ (.NewOptimization (a1 :: t1) id1)
      = .ok ⟨[(hashOp a1, [(a1, 0)])], [[id1]]⟩ := rfl
  have s2 : insert beq hashOp ⟨[(hashOp a1, [(a1, 0)])], [[id1]]⟩
      (.NewOptimization (a2 :: t2) id2)
      = .ok ⟨[(hashOp a1, [(a1, 0)])], [[id1, id2]]⟩ := by
    show insert_new_ops beq hashOp ⟨[(hashOp a1, [(a1, 0)])], [[id1]]⟩ a2 id2 = _
    unfold insert_new_ops
    have hb : getBucket [(hashOp a1, [(a1, 0)])] (hashOp a2) = some [(a1, 0)] := by
      simp [getBucket, hhash]
    simp only [hb]
    rw [List.find?_cons_of_pos _ (by simp [hbeq])]
    rfl
  have key : insertAll beq hashOp ⟨[], []⟩ [(a1 :: t1, id1), (a2 :: t2, id2)]
      = .ok ⟨[(hashOp a1, [(a1, 0)])], [[id1, id2]]⟩ := by
    simp only [insertAll, s1, s2]
  rw [key] at h
  simp only [Except.ok.injEq] at h
  subst h
  refine ⟨rfl, ?_⟩
  show find_starting_with beq hashOp _ a1 = _
  rw [find_sw_of_bucket_some beq hashOp _ a1 [(a1, 0)] (by simp [getBucket])]
  rw [List.find?_cons_of_pos _ (by simp [hL.refl a1])]
  rfl

/-- C4.  On any reachable index, inserting an empty defining sequence fails
with the invariant-violation error, and inserting any non-empty sequence
succeeds without raising it. -/
theorem insert_requires_nonempty_stream (hL : BeqLaws beq hashOp)
    (idx : OptimizationIndex Op) (hR : Reachable beq hashOp idx)
    (s : List Op) (id : OptimizationId) :
    (s = [] → insert beq hashOp idx (.NewOptimization s id)
      = .error .invariantViolation)
    ∧ (s ≠ [] → ∃ idx', insert beq hashOp idx (.NewOptimization s id) = .ok idx') := by
  constructor
  · intro hs
    subst hs
    rfl
  · intro hs
    cases s with
    | nil => exact absurd rfl hs
    | cons a t =>
      have : insert beq hashOp idx (.NewOptimization (a :: t) id)
          = insert_new_ops beq hashOp idx a id := rfl
      rw [this]
      exact insert_new_ops_isOk beq hashOp idx (Reachable.inv beq hashOp hL idx hR) a id

/-- C7.  Structural invariant of every reachable index: slot references in
bucket entries are in bounds, each slot is referenced by exactly one
bucket entry, slots are non-empty; consequently the slot lookups inside
`insert_new_ops` and `find_starting_with` cannot fail. -/
theorem reachable_structural_invariant (hL : BeqLaws beq hashOp)
    (idx : OptimizationIndex Op) (hR : Reachable beq hashOp idx) :
    (∀ kv ∈ idx.mapping, ∀ p ∈ kv.2, p.2 < idx.starters.length)
    ∧ (∀ i, i < idx.starters.length →
        (allEntries idx.mapping).countP (fun p => p.2 == i) = 1)
    ∧ (∀ l ∈ idx.starters, l ≠ [])
    ∧ (∀ a id, ∃ idx', insert_new_ops beq hashOp idx a id = .ok idx')
    ∧ (∀ op e, entryFor beq hashOp idx op = some e →
        ∃ slot, idx.starters[e.2]? = some slot) := by
  have hInv := Reachable.inv beq hashOp hL idx hR
  refine ⟨hInv.bounded, ?_, hInv.nonemptySlots, ?_, ?_⟩
  · intro i hi
    exact countP_eq_one_of_nodup_mem Prod.snd (allEntries idx.mapping) i
      hInv.slotNodup (hInv.covered i hi)
  · exact fun a id => insert_new_ops_isOk beq hashOp idx hInv a id
  · intro op e hef
    unfold entryFor at hef
    cases hb : getBucket idx.mapping (hashOp op) with
    | none => rw [hb] at hef; exact Option.noConfusion hef
    | some vs =>
      rw [hb] at hef
      have hmem := List.mem_of_find?_eq_some hef
      have hbd : e.2 < idx.starters.length :=
        hInv.bounded (hashOp op, vs) (getBucket_mem idx.mapping (hashOp op) vs hb) e hmem
      exact get?_some_of_lt idx.starters e.2 hbd

/-- C8.  `find` is monotone under `insert`: after one successful insert on
a reachable index, the previous result of `find` for any query is a
prefix of the new result. -/
theorem find_monotone_insert (hL : BeqLaws beq hashOp)
    (idx : OptimizationIndex Op) (hR : Reachable beq hashOp idx)
    (s : List Op) (id : OptimizationId) (idx' : OptimizationIndex Op)
    (h : insert beq hashOp idx (.NewOptimization s id) = .ok idx')
    (q : SearchQuery Op) :
    ∃ tail, find beq hashOp idx' q = find beq hashOp idx q ++ tail := by
  obtain ⟨op⟩ := q
  cases s with
  | nil => exact absurd h (by simp [insert])
  | cons a t =>
    have hh : insert_new_ops beq hashOp idx a id = .ok idx' := h
    exact ⟨if beq a op then [id] else [],
      find_insert beq hashOp hL idx (Reachable.inv beq hashOp hL idx hR) a id idx' hh op⟩

/-- C9.  `find` is idempotent and side-effect free: it returns the index
unchanged, and two consecutive calls with no intervening insert return
identical results. -/
theorem find_idempotent_pure (idx : OptimizationIndex Op) (q : SearchQuery Op) :
    (findS beq hashOp idx q).2 = idx
    ∧ (findS beq hashOp (findS beq hashOp idx q).2 q).1 = (findS beq hashOp idx q).1 :=
  ⟨rfl, rfl⟩

end OptimizationIndex

/-! ### Claim theorems for the stream manager -/

/-- Helper for the drain theorem: processing the item list in `Sync` mode
with a processor that fully drains in `Sync` mode leaves every resulting
stream empty and preserves the number of items. -/
theorem MultiStream.drainItems_flushes {D O E St H : Type}
    (process : ProcessFn D O E St H)
    (hSync : ∀ e s st h, (process e s st h ExecutionMode.Sync).2.1 = ([] : OpStream D O))
    (items : List (StreamItem D O E)) :
    ∀ (store : St) (handles : H),
      (MultiStream.drainItems process items store handles).1.length = items.length
      ∧ ∀ it ∈ (MultiStream.drainItems process items store handles).1,
          it.stream = [] := by
  induction items with
  | nil => intro store handles; simp [MultiStream.drainItems]
  | cons item rest ih =>
    intro store handles
    simp only [MultiStream.drainItems]
    constructor
    · simp [(ih _ _).1]
    · intro it hit
      rcases List.mem_cons.mp hit with hit' | hit'
      · rw [hit']
        exact hSync item.executor item.stream store handles
      · exact (ih _ _).2 it hit'

/-- C5.  `register` appends the operation to the first stream, then
immediately invokes the processor on that same (appended) stream in
`Lazy` mode with the shared optimization store and handle container,
leaving all other items untouched. -/
theorem MultiStream.register_appends_then_lazy {D O E St H : Type}
    (process : ProcessFn D O E St H) (ms : MultiStream D O E St)
    (item : StreamItem D O E) (rest : List (StreamItem D O E))
    (h : ms.items = item :: rest) (d : D) (o : O) (handles : H) :
    ∃ e' s' st' h', process item.executor (OpStream.add item.stream d o)
        ms.optimizations handles ExecutionMode.Lazy = (e', s', st', h')
      ∧ MultiStream.register process ms d o handles
        = (⟨⟨s', e'⟩ :: rest, st'⟩, h') := by
  obtain ⟨items, opts⟩ := ms
  simp only at h
  subst h
  exact ⟨_, _, _, _, rfl, rfl⟩

/-- C6.  `drain` invokes the processor in `Sync` mode on every owned
stream: provided `Sync` mode fully drains a stream (the specified
behavior of the processor), every stream of the resulting manager is
empty, and the number of streams is unchanged. -/
theorem MultiStream.drain_flushes_all {D O E St H : Type}
    (process : ProcessFn D O E St H) (ms : MultiStream D O E St) (handles : H)
    (hSync : ∀ e s st h, (process e s st h ExecutionMode.Sync).2.1 = ([] : OpStream D O)) :
    (MultiStream.drain process ms handles).1.items.length = ms.items.length
    ∧ ∀ it ∈ (MultiStream.drain process ms handles).1.items, it.stream = [] := by
  have hh := MultiStream.drainItems_flushes process hSync ms.items ms.optimizations handles
  exact hh

/-! ### Claim theorem for serialization -/

/-- Traversal of a mapped list with a pointwise inverse succeeds and gives
back the original list. -/
theorem optTraverse_map_id {α β : Type} (f : β → Option α) (g : α → β) (l : List α)
    (h : ∀ a ∈ l, f (g a) = some a) : optTraverse f (l.map g) = some l := by
  induction l with
  | nil => rfl
  | cons a t ih =>
    simp only [List.map_cons, optTraverse]
    rw [h a (List.mem_cons_self _ _), ih (fun x hx => h x (List.mem_cons_of_mem _ hx))]

/-- C10.  Serialization round trip: deserializing the serialized index
reproduces the bucket and slot structure exactly, so `find` answers every
query identically before and after the round trip. -/
theorem serialize_roundtrip_preserves_find {Op T : Type} (beq : Op → Op → Bool)
    (hashOp : Op → Nat) (enc : Op → T) (dec : T → Option Op)
    (hdec : ∀ o, dec (enc o) = some o) (idx : OptimizationIndex Op) :
    deserializeIndex dec (serializeIndex enc idx) = some idx
    ∧ ∀ idx₂, deserializeIndex dec (serializeIndex enc idx) = some idx₂ →
        ∀ q, OptimizationIndex.find beq hashOp idx₂ q
          = OptimizationIndex.find beq hashOp idx q := by
  have hinner : ∀ kv ∈ idx.mapping,
      (optTraverse (fun p => (dec p.1).map (fun o => (o, p.2)))
        ((fun kv : Nat × List (Op × Nat) =>
          (kv.1, kv.2.map (fun p => (enc p.1, p.2)))) kv).2).map
        (fun vs => (((fun kv : Nat × List (Op × Nat) =>
          (kv.1, kv.2.map (fun p => (enc p.1, p.2)))) kv).1, vs)) = some kv := by
    intro kv _
    have h2 : optTraverse (fun p => (dec p.1).map (fun o => (o, p.2)))
        (kv.2.map (fun p => (enc p.1, p.2))) = some kv.2 := by
      apply optTraverse_map_id
      intro p _
      simp [hdec]
    simp [h2]
  have houter : optTraverse (fun kv =>
      (optTraverse (fun p => (dec p.1).map (fun o => (o, p.2))) kv.2).map
        (fun vs => (kv.1, vs)))
      (idx.mapping.map (fun kv => (kv.1, kv.2.map (fun p => (enc p.1, p.2)))))
      = some idx.mapping := by
    apply optTraverse_map_id
    exact hinner
  have hrt : deserializeIndex dec (serializeIndex enc idx) = some idx := by
    unfold deserializeIndex serializeIndex
    simp only [houter]
  refine ⟨hrt, ?_⟩
  intro idx₂ h2 q
  rw [hrt] at h2
  simp only [Option.some.injEq] at h2
  rw [h2]

/-! ### Witnesses at concrete inputs -/

/-- The concrete equality and hash functions satisfy the laws. -/
theorem natBeqLaws0 : OptimizationIndex.BeqLaws natBeq natHash0 := by
  constructor
  · intro a
    simp [natBeq]
  · intro a b h
    simp only [natBeq, beq_iff_eq] at h ⊢
    exact h.symm
  · intro a b c h1 h2
    simp only [natBeq, beq_iff_eq] at h1 h2 ⊢
    exact h1.trans h2
  · intro a b _
    rfl

theorem find_returns_registered_ids_witness :
    OptimizationIndex.insertAll natBeq natHash0 ⟨[], []⟩ [([5, 7], 0), ([5], 1), ([3], 2)]
      = .ok ⟨[(0, [(5, 0), (3, 1)])], [[0, 1], [2]]⟩
    ∧ 1 ∈ OptimizationIndex.find natBeq natHash0 ⟨[(0, [(5, 0), (3, 1)])], [[0, 1], [2]]⟩
        (.OptimizationsStartingWith 5) := by
  refine ⟨by rfl, ?_⟩
  exact (OptimizationIndex.find_returns_registered_ids natBeq natHash0 natBeqLaws0
    [([5, 7], 0), ([5], 1), ([3], 2)] ⟨[(0, [(5, 0), (3, 1)])], [[0, 1], [2]]⟩
    (by rfl)).2 5 [] 1 (by simp)

theorem collision_separate_slots_witness :
    getBucket (⟨[(0, [(5, 0), (3, 1)])], [[7], [9]]⟩ :
        OptimizationIndex Nat).mapping (natHash0 5) = some [(5, 0), (3, 1)]
    ∧ (⟨[(0, [(5, 0), (3, 1)])], [[7], [9]]⟩ :
        OptimizationIndex Nat).starters = [[7], [9]]
    ∧ OptimizationIndex.find natBeq natHash0 ⟨[(0, [(5, 0), (3, 1)])], [[7], [9]]⟩
        (.OptimizationsStartingWith 5) = [7]
    ∧ OptimizationIndex.find natBeq natHash0 ⟨[(0, [(5, 0), (3, 1)])], [[7], [9]]⟩
        (.OptimizationsStartingWith 3) = [9]
    ∧ 9 ∉ OptimizationIndex.find natBeq natHash0 ⟨[(0, [(5, 0), (3, 1)])], [[7], [9]]⟩
        (.OptimizationsStartingWith 5)
    ∧ 7 ∉ OptimizationIndex.find natBeq natHash0 ⟨[(0, [(5, 0), (3, 1)])], [[7], [9]]⟩
        (.OptimizationsStartingWith 3) :=
  OptimizationIndex.collision_separate_slots natBeq natHash0 natBeqLaws0 5 3 [] [4] 7 9
    (by rfl) (by decide) (by decide) ⟨[(0, [(5, 0), (3, 1)])], [[7], [9]]⟩ (by rfl)

theorem same_starter_appends_witness :
    (⟨[(0, [(5, 0)])], [[4, 6]]⟩ : OptimizationIndex Nat).starters = [[4, 6]]
    ∧ OptimizationIndex.find natBeq natHash0 ⟨[(0, [(5, 0)])], [[4, 6]]⟩
        (.OptimizationsStartingWith 5) = [4, 6] :=
  OptimizationIndex.same_starter_appends natBeq natHash0 natBeqLaws0 5 5 [1] [2] 4 6
    (by decide) ⟨[(0, [(5, 0)])], [[4, 6]]⟩ (by rfl)

theorem insert_requires_nonempty_stream_witness :
    OptimizationIndex.insert natBeq natHash0 ⟨[], []⟩ (.NewOptimization [] 3)
      = .error .invariantViolation
    ∧ ∃ idx', OptimizationIndex.insert natBeq natHash0 ⟨[], []⟩ (.NewOptimization [5] 3)
      = .ok idx' := by
  constructor
  · exact (OptimizationIndex.insert_requires_nonempty_stream natBeq natHash0 natBeqLaws0
      ⟨[], []⟩ .empty [] 3).1 rfl
  · exact (OptimizationIndex.insert_requires_nonempty_stream natBeq natHash0 natBeqLaws0
      ⟨[], []⟩ .empty [5] 3).2 (by simp)

theorem reachable_structural_invariant_witness :
    (∀ kv ∈ (⟨[(0, [(5, 0)])], [[4]]⟩ : OptimizationIndex Nat).mapping, ∀ p ∈ kv.2,
        p.2 < (⟨[(0, [(5, 0)])], [[4]]⟩ : OptimizationIndex Nat).starters.length)
    ∧ (∀ i, i < (⟨[(0, [(5, 0)])], [[4]]⟩ : OptimizationIndex Nat).starters.length →
        (allEntries (⟨[(0, [(5, 0)])], [[4]]⟩ :
          OptimizationIndex Nat).mapping).countP (fun p => p.2 == i) = 1)
    ∧ (∀ l ∈ (⟨[(0, [(5, 0)])], [[4]]⟩ : OptimizationIndex Nat).starters, l ≠ [])
    ∧ (∀ a id, ∃ idx', OptimizationIndex.insert_new_ops natBeq natHash0
        ⟨[(0, [(5, 0)])], [[4]]⟩ a id = .ok idx')
    ∧ (∀ op e, OptimizationIndex.entryFor natBeq natHash0
        ⟨[(0, [(5, 0)])], [[4]]⟩ op = some e →
        ∃ slot, (⟨[(0, [(5, 0)])], [[4]]⟩ :
          OptimizationIndex Nat).starters[e.2]? = some slot) :=
  OptimizationIndex.reachable_structural_invariant natBeq natHash0 natBeqLaws0
    ⟨[(0, [(5, 0)])], [[4]]⟩
    (OptimizationIndex.Reachable.step [5, 9] 4 OptimizationIndex.Reachable.empty (by rfl))

theorem find_monotone_insert_witness :
    ∃ tail, OptimizationIndex.find natBeq natHash0 ⟨[(0, [(5, 0)])], [[0]]⟩
        (.OptimizationsStartingWith 5)
      = OptimizationIndex.find natBeq natHash0 ⟨[], []⟩
          (.OptimizationsStartingWith 5) ++ tail :=
  OptimizationIndex.find_monotone_insert natBeq natHash0 natBeqLaws0 ⟨[], []⟩
    OptimizationIndex.Reachable.empty [5] 0 ⟨[(0, [(5, 0)])], [[0]]⟩ (by rfl)
    (.OptimizationsStartingWith 5)

theorem register_appends_then_lazy_witness :
    ∃ e' s' st' h', emptyProcess Nat Nat Nat Nat Nat 0
        (OpStream.add ([(1, 2)] : OpStream Nat Nat) 3 4) 6 7 ExecutionMode.Lazy
        = (e', s', st', h')
      ∧ MultiStream.register (emptyProcess Nat Nat Nat Nat Nat)
          ⟨[⟨[(1, 2)], 0⟩], 6⟩ 3 4 7 = (⟨⟨s', e'⟩ :: [], st'⟩, h') :=
  MultiStream.register_appends_then_lazy (emptyProcess Nat Nat Nat Nat Nat)
    ⟨[⟨[(1, 2)], 0⟩], 6⟩ ⟨[(1, 2)], 0⟩ [] rfl 3 4 7

theorem drain_flushes_all_witness :
    (MultiStream.drain (emptyProcess Nat Nat Nat Nat Nat)
        (⟨[⟨[(1, 2)], 0⟩, ⟨[(3, 4)], 5⟩], 9⟩ : MultiStream Nat Nat Nat Nat)
        0).1.items.length
      = (⟨[⟨[(1, 2)], 0⟩, ⟨[(3, 4)], 5⟩], 9⟩ : MultiStream Nat Nat Nat Nat).items.length
    ∧ ∀ it ∈ (MultiStream.drain (emptyProcess Nat Nat Nat Nat Nat)
        (⟨[⟨[(1, 2)], 0⟩, ⟨[(3, 4)], 5⟩], 9⟩ : MultiStream Nat Nat Nat Nat)
        0).1.items, it.stream = [] :=
  MultiStream.drain_flushes_all (emptyProcess Nat Nat Nat Nat Nat)
    ⟨[⟨[(1, 2)], 0⟩, ⟨[(3, 4)], 5⟩], 9⟩ 0 (fun _ _ _ _ => rfl)

theorem serialize_roundtrip_preserves_find_witness :
    deserializeIndex (fun t : Nat => some t)
        (serializeIndex (fun o : Nat => o) ⟨[(0, [(5, 0)])], [[4]]⟩)
      = some ⟨[(0, [(5, 0)])], [[4]]⟩
    ∧ ∀ idx₂, deserializeIndex (fun t : Nat => some t)
        (serializeIndex (fun o : Nat => o) ⟨[(0, [(5, 0)])], [[4]]⟩) = some idx₂ →
        ∀ q, OptimizationIndex.find natBeq natHash0 idx₂ q
          = OptimizationIndex.find natBeq natHash0 ⟨[(0, [(5, 0)])], [[4]]⟩ q :=
  serialize_roundtrip_preserves_find natBeq natHash0 (fun o => o) (fun t => some t)
    (fun _ => rfl) ⟨[(0, [(5, 0)])], [[4]]⟩
